import Mathlib

/-!
Shallow embedding of `django_deep_translator/management/commands/translate_messages.py`
(class `Command`).

Modelling conventions:
* Wall-clock time is a rational number.  `time.time()` values are supplied as
  explicit inputs (the `now` arguments / the `nows` list); `time.sleep(d)`
  advances the clock by exactly `d`.
* Filesystem paths are lists of path components; `os.walk` output is supplied
  as data (`WalkDir`), and the parsed content of each `.po` file is attached
  to its file name (the external polib parser is not re-implemented).
* The external translation capability (`get_translator().translate_string`)
  is an oracle `String → String → String → Except String String`; raising an
  exception is the `Except.error` case.
* Logging calls are modelled as an append-only `Event` list carried in the
  run state; file writes (`po.save()`) are recorded as `Event.saved` events.
* The `IndexError` that `self.request_times[0]` raises on an empty list is
  modelled by `wait_for_rate_limit` returning `none`; since that call sits
  outside the `try` block, a `none` aborts the whole run.
-/

namespace DeepTranslator

/-- One message of a PO catalog: source text `msgid`, translated text
`msgstr`, and the entry's flag list.  These are the only polib entry fields
the command reads or writes. -/
structure POEntry where
  msgid : String
  msgstr : String
  flags : List String
deriving DecidableEq

/-- Modelled from the spec: the external polib collaborator's
`POEntry.translated()` used at line 150 — an entry counts as already fully
translated when its translation is non-empty and it is not marked "fuzzy"
(per catalog-format semantics described in the spec, §4.2). -/
def POEntry.translated (e : POEntry) : Bool :=
  e.msgstr != "" && !(e.flags.contains "fuzzy")

/-- Observable events of a run, in emission order: a locale skipped by the
allow-list, a rate-limited translation request issued (recording the source
text and the target language passed to the translation capability), a
catalog file written to disk, a successful translation logged (texts
truncated to 50 characters as in the source), a failure logged (source text
truncated to 50 characters), and the limit-reached message. -/
inductive Event where
  | skipLocale (locale : String)
  | request (msgid : String) (target : String)
  | saved (path : List String)
  | translated (msgid : String) (msgstr : String)
  | failed (msgid : String) (err : String)
  | limitStop
deriving DecidableEq

/-- The mutable state of a run: the `translated_count` and `request_times`
attributes set up by `set_options`, the current wall-clock time, and the
event log. -/
structure RunSt where
  translated_count : ℕ
  request_times : List ℚ
  now : ℚ
  log : List Event
deriving DecidableEq

/-- The command options collected by `set_options` (argparse / optparse
defaults: `locale=[]`, `skip_translated=False`, `set_fuzzy=False`,
`source_language="en"`, `limit_translations=None`, `requests_per_10s=10`). -/
structure Options where
  locale : List String
  skip_translated : Bool
  set_fuzzy : Bool
  source_language : String
  limit_translations : Option ℤ
  requests_per_10s : ℤ
deriving DecidableEq

/-- The external translation capability: arguments are the source text, the
source language and the target language; an exception is `Except.error`. -/
abbrev Oracle := String → String → String → Except String String

/-- An oracle that always succeeds, returning `f text src tgt`. -/
def okOracle (f : String → String → String → String) : Oracle :=
  fun text src tgt => Except.ok (f text src tgt)

/-- Python truthiness test
`if self.limit_translations and self.translated_count >= self.limit_translations`:
`None` and `0` are falsy, any other integer is truthy. -/
def limitReached (limit : Option ℤ) (count : ℕ) : Bool :=
  match limit with
  | none => false
  | some l => !(l == 0) && decide (l ≤ (count : ℤ))

/-- Line 74 / line 84: drop every recorded timestamp `t` with
`current_time - t >= 10`. -/
def prune (now : ℚ) (times : List ℚ) : List ℚ :=
  times.filter fun t => decide (now - t < 10)

/-- `Command.wait_for_rate_limit` (lines 69–87).  Input: the configured
`requests_per_10s`, the current `request_times`, and the value of
`time.time()` at entry.  Output: the new `request_times` and the time at
which the call returns (`time.sleep` advances the clock by exactly the
computed duration), or `none` for the `IndexError` raised by
`self.request_times[0]` on an empty list. -/
def wait_for_rate_limit (requests_per_10s : ℤ) (request_times : List ℚ)
    (now : ℚ) : Option (List ℚ × ℚ) :=
  let times := prune now request_times
  if (times.length : ℤ) ≥ requests_per_10s then
    match times with
    | [] => none
    | t0 :: rest =>
      let sleep_time := 10 - (now - t0)
      if 0 < sleep_time then
        let now2 := now + sleep_time
        let times2 := prune now2 (t0 :: rest)
        some (times2 ++ [now2], now2)
      else
        some ((t0 :: rest) ++ [now], now)
  else
    some (times ++ [now], now)

/-- One `wait_for_rate_limit` call viewed as a state transition on the
timestamp list alone. -/
def acquireStep (m : ℤ) (times : List ℚ) (now : ℚ) : Option (List ℚ) :=
  (wait_for_rate_limit m times now).map Prod.fst

/-- A whole sequence of `wait_for_rate_limit` calls starting from the empty
`request_times` that `set_options` installs; the list `nows` supplies the
`time.time()` value observed at the start of each call. -/
def runAcquires (m : ℤ) (nows : List ℚ) : Option (List ℚ) :=
  nows.foldlM (acquireStep m) []

/-- Number of recorded timestamps inside the trailing 10-second window
ending at `wEnd`. -/
def windowCount (wEnd : ℚ) (times : List ℚ) : ℕ :=
  (times.filter fun t => decide (wEnd - t < 10) && decide (t ≤ wEnd)).length

/-- Python's `file.endswith(t)` (line 113), on the character sequences of
the two strings. -/
def strEndsWith (s t : String) : Bool :=
  t.toList.isSuffixOf s.toList

/-- Python's `not entry.msgid.strip()` test (line 154): the stripped string
is empty exactly when every character of the string is whitespace. -/
def strippedEmpty (s : String) : Bool :=
  s.toList.all Char.isWhitespace

/-- The entry-selection rule of `translate_file` (lines 149–155): an entry
is sent for translation unless (`skip_translated` and the entry is already
translated) or its source text is empty after stripping whitespace. -/
def selectEntry (skip_translated : Bool) (e : POEntry) : Bool :=
  !(skip_translated && e.translated) && !(strippedEmpty e.msgid)

/-- Lines 157–175: rate-limit, then call the translation capability on one
entry.  On success the entry's `msgstr` is set, the fuzzy flag is appended
when `set_fuzzy`, the counter is incremented and the catalog at `path` is
saved; on failure the error is logged with the source text truncated and
nothing else changes.  `none` models the `IndexError` escaping
`wait_for_rate_limit` (which sits outside the `try`). -/
def attemptEntry (opts : Options) (oracle : Oracle) (path : List String)
    (target : String) (e : POEntry) (st : RunSt) : Option (POEntry × RunSt) :=
  match wait_for_rate_limit opts.requests_per_10s st.request_times st.now with
  | none => none
  | some (ts, now2) =>
    let st1 : RunSt :=
      { st with request_times := ts, now := now2,
                log := st.log ++ [Event.request e.msgid target] }
    match oracle e.msgid opts.source_language target with
    | Except.ok t =>
      let e2 : POEntry :=
        { e with msgstr := t,
                 flags := if opts.set_fuzzy then e.flags ++ ["fuzzy"] else e.flags }
      some (e2,
        { st1 with translated_count := st1.translated_count + 1,
                   log := st1.log ++ [Event.saved path,
                     Event.translated (e.msgid.take 50) (t.take 50)] })
    | Except.error err =>
      some (e, { st1 with log := st1.log ++ [Event.failed (e.msgid.take 50) err] })

/-- The entry loop of `translate_file` (lines 143–177).  Returns the updated
entry list, the updated run state, and the completion flag (`True` if the
loop finished, `False` if it stopped because the translation limit was
reached). -/
def translateEntries (opts : Options) (oracle : Oracle) (path : List String)
    (target : String) : RunSt → List POEntry → Option (List POEntry × RunSt × Bool)
  | st, [] => some ([], st, true)
  | st, e :: rest =>
    if limitReached opts.limit_translations st.translated_count then
      some (e :: rest, { st with log := st.log ++ [Event.limitStop] }, false)
    else if opts.skip_translated && e.translated then
      (translateEntries opts oracle path target st rest).map
        fun r => (e :: r.1, r.2)
    else if strippedEmpty e.msgid then
      (translateEntries opts oracle path target st rest).map
        fun r => (e :: r.1, r.2)
    else
      match attemptEntry opts oracle path target e st with
      | none => none
      | some (e2, st2) =>
        (translateEntries opts oracle path target st2 rest).map
          fun r => (e2 :: r.1, r.2)

/-- `Command.translate_file` (lines 129–177): load the catalog at
`root ++ [file_name]` (its parsed entries are supplied as `entries`) and run
the entry loop. -/
def translate_file (opts : Options) (oracle : Oracle) (root : List String)
    (file_name : String) (target : String) (entries : List POEntry)
    (st : RunSt) : Option (List POEntry × RunSt × Bool) :=
  translateEntries opts oracle (root ++ [file_name]) target st entries

/-- Line 118: `os.path.basename(os.path.dirname(root))`, with `root` given
as a list of path components — drop the last component, then take the name
of the last remaining one. -/
def targetLangOf (root : List String) : String :=
  root.dropLast.getLastD ""

/-- One directory visited by `os.walk`: its path (the `root` loop variable)
and its files, each file name paired with the parsed entries of that file. -/
structure WalkDir where
  path : List String
  files : List (String × List POEntry)
deriving DecidableEq

/-- The `for file in files` loop of `handle` (lines 107–127).  Returns the
updated run state and `true` to keep walking, or `false` when the run must
stop (translation limit reached). -/
def processFiles (opts : Options) (oracle : Oracle) (root : List String) :
    RunSt → List (String × List POEntry) → Option (RunSt × Bool)
  | st, [] => some (st, true)
  | st, (name, entries) :: rest =>
    if limitReached opts.limit_translations st.translated_count then
      some ({ st with log := st.log ++ [Event.limitStop] }, false)
    else if !(strEndsWith name ".po") then
      processFiles opts oracle root st rest
    else
      let target := targetLangOf root
      if !opts.locale.isEmpty && !(opts.locale.contains target) then
        processFiles opts oracle root
          { st with log := st.log ++ [Event.skipLocale target] } rest
      else
        match translate_file opts oracle root name target entries st with
        | none => none
        | some (_, st2, b) =>
          if b then processFiles opts oracle root st2 rest
          else some (st2, false)

/-- The `for root, dirs, files in os.walk(directory)` loop (line 106). -/
def processWalk (opts : Options) (oracle : Oracle) :
    RunSt → List WalkDir → Option (RunSt × Bool)
  | st, [] => some (st, true)
  | st, d :: rest =>
    match processFiles opts oracle d.path st d.files with
    | none => none
    | some (st2, b) =>
      if b then processWalk opts oracle st2 rest else some (st2, false)

/-- The `for directory in settings.LOCALE_PATHS` loop (lines 99–127),
including the per-root limit check at lines 100–103. -/
def processRoots (opts : Options) (oracle : Oracle) :
    RunSt → List (List WalkDir) → Option RunSt
  | st, [] => some st
  | st, root :: rest =>
    if limitReached opts.limit_translations st.translated_count then
      some { st with log := st.log ++ [Event.limitStop] }
    else
      match processWalk opts oracle st root with
      | none => none
      | some (st2, b) =>
        if b then processRoots opts oracle st2 rest else some st2

/-- The Django settings the command consults: whether i18n is enabled, and
the configured catalog roots, each given as its `os.walk` output. -/
structure Settings where
  USE_I18N : Bool
  LOCALE_PATHS : List (List WalkDir)
deriving DecidableEq

/-- `Command.handle` (lines 89–127): the two configuration asserts, then
the directory walk.  `t0` is the wall-clock time at the start of the run;
`set_options` initialises `translated_count = 0` and `request_times = []`.
The `IndexError` that can escape `wait_for_rate_limit` surfaces as an
error as well, distinct from the two `AssertionError` messages. -/
def handle (settings : Settings) (opts : Options) (oracle : Oracle) (t0 : ℚ) :
    Except String RunSt :=
  if !settings.USE_I18N then
    Except.error "i18n framework is disabled"
  else if settings.LOCALE_PATHS.isEmpty then
    Except.error "locale paths is not configured properly"
  else
    match processRoots opts oracle
        { translated_count := 0, request_times := [], now := t0, log := [] }
        settings.LOCALE_PATHS with
    | none => Except.error "IndexError"
    | some st => Except.ok st

/-- Number of selected entries in one catalog. -/
def selCount (skip_translated : Bool) (entries : List POEntry) : ℕ :=
  (entries.filter (selectEntry skip_translated)).length

/-- Number of entries one directory file would contribute: zero unless it is
a `.po` file whose derived locale passes the allow-list. -/
def fileSel (opts : Options) (root : List String)
    (f : String × List POEntry) : ℕ :=
  if !(strEndsWith f.1 ".po") then 0
  else if !opts.locale.isEmpty && !(opts.locale.contains (targetLangOf root)) then 0
  else selCount opts.skip_translated f.2

/-- Selected entries over the files of one walked directory. -/
def filesSel (opts : Options) (root : List String)
    (files : List (String × List POEntry)) : ℕ :=
  (files.map (fileSel opts root)).sum

/-- Selected entries over one configured root's walk. -/
def rootSel (opts : Options) (w : List WalkDir) : ℕ :=
  (w.map fun d => filesSel opts d.path d.files).sum

/-- Selected entries over the whole catalog tree. -/
def treeSel (opts : Options) (roots : List (List WalkDir)) : ℕ :=
  (roots.map (rootSel opts)).sum

/-- The translation requests recorded in a log, oldest first: each carries
the source text and the target language handed to the capability. -/
def requestedIds (log : List Event) : List (String × String) :=
  log.filterMap fun ev =>
    match ev with
    | Event.request m t => some (m, t)
    | _ => none

/-- Number of translation requests recorded in a log. -/
def requestCount (log : List Event) : ℕ :=
  (requestedIds log).length

/-- Number of successful translations recorded in a log. -/
def successCount (log : List Event) : ℕ :=
  log.countP fun ev =>
    match ev with
    | Event.translated _ _ => true
    | _ => false

/-- The catalog paths written to disk, in order, one per save. -/
def savedPaths (log : List Event) : List (List String) :=
  log.filterMap fun ev =>
    match ev with
    | Event.saved p => some p
    | _ => none

/-- Number of catalog saves recorded in a log. -/
def savedCount (log : List Event) : ℕ :=
  (savedPaths log).length

/-! ### Bookkeeping lemmas for the event log -/

lemma requestedIds_append (l l' : List Event) :
    requestedIds (l ++ l') = requestedIds l ++ requestedIds l' := by
  simp [requestedIds]

lemma requestCount_append (l l' : List Event) :
    requestCount (l ++ l') = requestCount l + requestCount l' := by
  simp [requestCount, requestedIds_append]

lemma successCount_append (l l' : List Event) :
    successCount (l ++ l') = successCount l + successCount l' := by
  simp [successCount, List.countP_append]

lemma savedPaths_append (l l' : List Event) :
    savedPaths (l ++ l') = savedPaths l ++ savedPaths l' := by
  simp [savedPaths]

lemma savedCount_append (l l' : List Event) :
    savedCount (l ++ l') = savedCount l + savedCount l' := by
  simp [savedCount, savedPaths_append]

/-! ### Rate limiter lemmas -/

lemma mem_prune {now t : ℚ} {ts : List ℚ} (h : t ∈ prune now ts) :
    now - t < 10 := by
  have := List.of_mem_filter h
  exact of_decide_eq_true this

lemma length_prune_le (now : ℚ) (ts : List ℚ) :
    (prune now ts).length ≤ ts.length :=
  List.length_filter_le _ _

/-- Every successful `wait_for_rate_limit` call returns a timestamp list
ending in one newly appended timestamp: the time at which it returns. -/
lemma wait_for_rate_limit_shape {m : ℤ} {ts ts' : List ℚ} {now now' : ℚ}
    (h : wait_for_rate_limit m ts now = some (ts', now')) :
    ∃ pr, ts' = pr ++ [now'] := by
  simp only [wait_for_rate_limit] at h
  split at h
  · split at h
    · exact absurd h (by simp)
    · split at h
      · simp only [Option.some.injEq, Prod.mk.injEq] at h
        obtain ⟨h1, h2⟩ := h
        subst h1
        subst h2
        exact ⟨_, rfl⟩
      · simp only [Option.some.injEq, Prod.mk.injEq] at h
        obtain ⟨h1, h2⟩ := h
        subst h1
        subst h2
        exact ⟨_, rfl⟩
  · simp only [Option.some.injEq, Prod.mk.injEq] at h
    obtain ⟨h1, h2⟩ := h
    subst h1
    subst h2
    exact ⟨_, rfl⟩

/-- When `requests_per_10s ≥ 1`, `wait_for_rate_limit` always succeeds:
whenever the admission bound is reached the pruned list is non-empty, so
indexing its head cannot fail, and the sleep duration is positive. -/
lemma wait_for_rate_limit_isSome {m : ℤ} (hm : 1 ≤ m) (ts : List ℚ)
    (now : ℚ) : (wait_for_rate_limit m ts now).isSome = true := by
  simp only [wait_for_rate_limit]
  split
  · case isTrue hge =>
    split
    · case h_1 heq =>
      rw [heq] at hge
      simp at hge
      omega
    · split <;> simp
  · simp

/-- If at most `m` timestamps are recorded before a call with `m ≥ 1`, at
most `m` are recorded after it returns: the re-pruning after the sleep
always removes at least the oldest recorded timestamp. -/
lemma wait_for_rate_limit_length {m : ℤ} {ts ts' : List ℚ}
    {now now' : ℚ} (hlen : (ts.length : ℤ) ≤ m)
    (h : wait_for_rate_limit m ts now = some (ts', now')) :
    (ts'.length : ℤ) ≤ m := by
  have hple : (prune now ts).length ≤ ts.length := length_prune_le now ts
  simp only [wait_for_rate_limit] at h
  split at h
  · case isTrue hge =>
    split at h
    · exact absurd h (by simp)
    · case h_2 t0 rest heq =>
      have ht0 : t0 ∈ prune now ts := by rw [heq]; exact List.mem_cons_self _ _
      have hlt : now - t0 < 10 := mem_prune ht0
      rw [if_pos (by linarith)] at h
      simp only [Option.some.injEq, Prod.mk.injEq] at h
      have hcond : (decide (now + (10 - (now - t0)) - t0 < 10)) = false := by
        have : now + (10 - (now - t0)) - t0 = 10 := by ring
        rw [this]
        simp
      have hfil : prune (now + (10 - (now - t0))) (t0 :: rest) =
          (rest.filter fun t => decide (now + (10 - (now - t0)) - t < 10)) := by
        simp only [prune, List.filter]
        rw [hcond]
      have hlen2 : (prune (now + (10 - (now - t0))) (t0 :: rest)).length ≤
          rest.length := by
        rw [hfil]
        exact List.length_filter_le _ _
      have hrest : rest.length + 1 = (prune now ts).length := by
        rw [heq]
        simp
      have hts' : ts' = prune (now + (10 - (now - t0))) (t0 :: rest) ++
          [now + (10 - (now - t0))] := h.1.symm
      rw [hts']
      simp only [List.length_append, List.length_singleton]
      omega
  · case isFalse hge =>
    simp only [Option.some.injEq, Prod.mk.injEq] at h
    have hts' : ts' = prune now ts ++ [now] := h.1.symm
    rw [hts']
    simp only [List.length_append, List.length_singleton]
    omega

/-- The timestamp-list invariant propagated through a whole sequence of
calls. -/
lemma runAcquires_length {m : ℤ} :
    ∀ (nows ts : List ℚ), (ts.length : ℤ) ≤ m →
      ∀ res, nows.foldlM (acquireStep m) ts = some res →
        (res.length : ℤ) ≤ m := by
  intro nows
  induction nows with
  | nil =>
    intro ts h res hres
    simp only [List.foldlM_nil, Option.pure_def, Option.some.injEq] at hres
    subst hres
    exact h
  | cons now rest ih =>
    intro ts h res hres
    rw [List.foldlM_cons] at hres
    cases hstep : acquireStep m ts now with
    | none => rw [hstep] at hres; exact absurd hres (by simp)
    | some ts1 =>
      rw [hstep] at hres
      simp at hres
      have h1 : (ts1.length : ℤ) ≤ m := by
        simp only [acquireStep] at hstep
        cases hw : wait_for_rate_limit m ts now with
        | none => rw [hw] at hstep; exact absurd hstep (by simp)
        | some r =>
          rw [hw] at hstep
          simp at hstep
          cases r with
          | mk a b =>
            have := wait_for_rate_limit_length h hw
            exact hstep ▸ this
      exact ih ts1 h1 res hres

/-- C2: for every sequence of `wait_for_rate_limit` calls with
`requests_per_10s ≥ 1`, starting from the empty timestamp list that
`set_options` installs, after any call returns the number of recorded
timestamps lying within any trailing 10-second window is at most the
configured maximum (timestamps older than the window having been pruned
before each admission check). -/
theorem c2_rate_limiter_window_bound (m : ℤ) (hm : 1 ≤ m)
    (nows ts : List ℚ) (h : runAcquires m nows = some ts) (wEnd : ℚ) :
    (windowCount wEnd ts : ℤ) ≤ m := by
  have hlen := runAcquires_length (m := m) nows []
    (by simp only [List.length_nil, Nat.cast_zero]; omega) ts h
  have hw : windowCount wEnd ts ≤ ts.length := List.length_filter_le _ _
  omega

/-- Witness for C2 at a concrete call sequence. -/
theorem c2_rate_limiter_window_bound_witness :
    (windowCount 0 [0] : ℤ) ≤ 1 :=
  c2_rate_limiter_window_bound 1 (by decide) [0] [0] (by decide) 0

/-- C3 (amended): with `requests_per_10s ≥ 1` the rate limiter never
raises an error. -/
theorem c3_never_errors_amended (m : ℤ) (hm : 1 ≤ m) (ts : List ℚ)
    (now : ℚ) : (wait_for_rate_limit m ts now).isSome = true :=
  wait_for_rate_limit_isSome hm ts now

/-- Witness for C3's amended theorem. -/
theorem c3_never_errors_witness : (wait_for_rate_limit 1 [] 0).isSome = true :=
  c3_never_errors_amended 1 (by decide) [] 0

/-- C3 counterexample: with `requests_per_10s = 0` and no recorded
timestamp, the very first `wait_for_rate_limit` call fails (the model's
`none` is the `IndexError` raised by `self.request_times[0]` on the empty
list), so the operation is not error-free for every configured maximum. -/
theorem c3_never_errors_counterexample : wait_for_rate_limit 0 [] 0 = none := by
  decide

/-! ### Per-entry processing lemmas -/

lemma selectEntry_eq_true {skip : Bool} {e : POEntry} :
    selectEntry skip e = true ↔
      (skip && e.translated) = false ∧ strippedEmpty e.msgid = false := by
  cases h1 : skip && e.translated <;> cases h2 : strippedEmpty e.msgid <;>
    simp [selectEntry, h1, h2]

lemma attemptEntry_ok (path : List String) {opts : Options} {oracle : Oracle}
    {target : String} {e : POEntry} {st : RunSt} {ts2 : List ℚ} {now2 : ℚ}
    {t : String}
    (hacq : wait_for_rate_limit opts.requests_per_10s st.request_times st.now =
      some (ts2, now2))
    (hok : oracle e.msgid opts.source_language target = Except.ok t) :
    attemptEntry opts oracle path target e st =
      some ({ msgid := e.msgid, msgstr := t,
              flags := if opts.set_fuzzy then e.flags ++ ["fuzzy"] else e.flags },
            { translated_count := st.translated_count + 1,
              request_times := ts2, now := now2,
              log := st.log ++ [Event.request e.msgid target, Event.saved path,
                Event.translated (e.msgid.take 50) (t.take 50)] }) := by
  simp [attemptEntry, hacq, hok]

lemma attemptEntry_err (path : List String) {opts : Options} {oracle : Oracle}
    {target : String} {e : POEntry} {st : RunSt} {ts2 : List ℚ} {now2 : ℚ}
    {err : String}
    (hacq : wait_for_rate_limit opts.requests_per_10s st.request_times st.now =
      some (ts2, now2))
    (herr : oracle e.msgid opts.source_language target = Except.error err) :
    attemptEntry opts oracle path target e st =
      some (e,
            { st with
                request_times := ts2, now := now2,
                log := st.log ++ [Event.request e.msgid target,
                  Event.failed (e.msgid.take 50) err] }) := by
  simp [attemptEntry, hacq, herr]

/-- Whatever the oracle answers, a successful attempt installs the
timestamp list returned by the rate limiter and records exactly one
request event carrying the target language. -/
lemma attemptEntry_elim {opts : Options} {oracle : Oracle} {path : List String}
    {target : String} {e e2 : POEntry} {st st2 : RunSt}
    (h : attemptEntry opts oracle path target e st = some (e2, st2)) :
    ∃ ts2 now2,
      wait_for_rate_limit opts.requests_per_10s st.request_times st.now =
        some (ts2, now2) ∧
      st2.request_times = ts2 ∧ st2.now = now2 ∧
      requestedIds st2.log = requestedIds st.log ++ [(e.msgid, target)] ∧
      st.translated_count ≤ st2.translated_count := by
  unfold attemptEntry at h
  cases hw : wait_for_rate_limit opts.requests_per_10s st.request_times st.now with
  | none => rw [hw] at h; exact absurd h (by simp)
  | some r =>
    rw [hw] at h
    cases r with
    | mk ts2 now2 =>
      refine ⟨ts2, now2, rfl, ?_⟩
      cases ho : oracle e.msgid opts.source_language target with
      | ok t =>
        rw [ho] at h
        simp only [Option.some.injEq, Prod.mk.injEq] at h
        rw [← h.2]
        refine ⟨rfl, rfl, ?_, by simp⟩
        simp [requestedIds_append, requestedIds, List.append_assoc]
      | error err =>
        rw [ho] at h
        simp only [Option.some.injEq, Prod.mk.injEq] at h
        rw [← h.2]
        refine ⟨rfl, rfl, ?_, by simp⟩
        simp [requestedIds_append, requestedIds, List.append_assoc]

lemma attemptEntry_isSome {opts : Options} {oracle : Oracle}
    {path : List String} {target : String} {e : POEntry} {st : RunSt}
    (hm : 1 ≤ opts.requests_per_10s) :
    (attemptEntry opts oracle path target e st).isSome = true := by
  unfold attemptEntry
  have hs := wait_for_rate_limit_isSome hm st.request_times st.now
  cases hw : wait_for_rate_limit opts.requests_per_10s st.request_times st.now with
  | none => rw [hw] at hs; exact absurd hs (by simp)
  | some r =>
    cases r with
    | mk ts2 now2 =>
      cases oracle e.msgid opts.source_language target <;> simp

lemma translateEntries_nil (opts : Options) (oracle : Oracle)
    (path : List String) (target : String) (st : RunSt) :
    translateEntries opts oracle path target st [] = some ([], st, true) := rfl

lemma translateEntries_cons (opts : Options) (oracle : Oracle)
    (path : List String) (target : String) (st : RunSt) (e : POEntry)
    (rest : List POEntry) :
    translateEntries opts oracle path target st (e :: rest) =
      if limitReached opts.limit_translations st.translated_count then
        some (e :: rest, { st with log := st.log ++ [Event.limitStop] }, false)
      else if opts.skip_translated && e.translated then
        (translateEntries opts oracle path target st rest).map
          fun r => (e :: r.1, r.2)
      else if strippedEmpty e.msgid then
        (translateEntries opts oracle path target st rest).map
          fun r => (e :: r.1, r.2)
      else
        match attemptEntry opts oracle path target e st with
        | none => none
        | some (e2, st2) =>
          (translateEntries opts oracle path target st2 rest).map
            fun r => (e2 :: r.1, r.2) := rfl

/-- C9: if internationalization is disabled, or no catalog root is
configured, `handle` fails with the corresponding configuration error
before any catalog is walked, any entry is selected, or any translation
call is made — the outcome does not depend on the catalog tree, the
options or the translation capability. -/
theorem c9_config_error_fail_fast :
    (∀ (roots : List (List WalkDir)) (opts : Options) (oracle : Oracle) (t0 : ℚ),
      handle { USE_I18N := false, LOCALE_PATHS := roots } opts oracle t0 =
        Except.error "i18n framework is disabled") ∧
    (∀ (opts : Options) (oracle : Oracle) (t0 : ℚ),
      handle { USE_I18N := true, LOCALE_PATHS := [] } opts oracle t0 =
        Except.error "locale paths is not configured properly") :=
  ⟨fun _ _ _ _ => rfl, fun _ _ _ => rfl⟩

/-- C10: every attempted entry consumes exactly one rate-limiter slot
before the translation capability is invoked: processing a selected entry
calls `wait_for_rate_limit`, which appends exactly one timestamp (the
return time) to the request-time sequence, the post-state keeps exactly
that sequence whether the subsequent translation call succeeds or fails,
and exactly one request event is recorded per attempt — so a failed
attempt's timestamp is never removed and still counts against the
requests-per-window budget. -/
theorem c10_one_slot_per_attempt (opts : Options) (oracle : Oracle)
    (path : List String) (target : String) (e e2 : POEntry) (st st2 : RunSt)
    (h : attemptEntry opts oracle path target e st = some (e2, st2)) :
    ∃ pr now2,
      wait_for_rate_limit opts.requests_per_10s st.request_times st.now =
        some (pr ++ [now2], now2) ∧
      st2.request_times = pr ++ [now2] ∧ st2.now = now2 ∧
      requestedIds st2.log = requestedIds st.log ++ [(e.msgid, target)] := by
  obtain ⟨ts2, now2, hw, h1, h2, h3, _⟩ := attemptEntry_elim h
  obtain ⟨pr, hpr⟩ := wait_for_rate_limit_shape hw
  subst hpr
  exact ⟨pr, now2, hw, h1, h2, h3⟩

set_option maxRecDepth 4000 in
/-- Witness for C10 at a concrete failed attempt. -/
theorem c10_one_slot_per_attempt_witness :
    ∃ pr now2,
      wait_for_rate_limit 10 [] 0 = some (pr ++ [now2], now2) ∧
      ([(0 : ℚ)] : List ℚ) = pr ++ [now2] ∧ (0 : ℚ) = now2 ∧
      requestedIds [Event.request "Hello" "fr", Event.failed "Hello" "boom"] =
        requestedIds [] ++ [("Hello", "fr")] :=
  c10_one_slot_per_attempt
    { locale := [], skip_translated := false, set_fuzzy := false,
      source_language := "en", limit_translations := none,
      requests_per_10s := 10 }
    (fun _ _ _ => Except.error "boom") ["app", "fr", "LC_MESSAGES", "x.po"] "fr"
    { msgid := "Hello", msgstr := "", flags := [] }
    { msgid := "Hello", msgstr := "", flags := [] }
    { translated_count := 0, request_times := [], now := 0, log := [] }
    { translated_count := 0, request_times := [0], now := 0,
      log := [Event.request "Hello" "fr", Event.failed "Hello" "boom"] }
    (by decide)

/-- C5: a per-entry translation failure is logged with the source text
truncated to 50 characters, leaves the entry unmodified, does not
increment the translated counter, does not save the catalog, and
processing continues with the remaining entries. -/
theorem c5_failure_is_nonfatal (opts : Options) (oracle : Oracle)
    (path : List String) (target : String) (st : RunSt) (e : POEntry)
    (rest : List POEntry) (err : String) (ts2 : List ℚ) (now2 : ℚ)
    (hnl : limitReached opts.limit_translations st.translated_count = false)
    (hsel : selectEntry opts.skip_translated e = true)
    (hacq : wait_for_rate_limit opts.requests_per_10s st.request_times st.now =
      some (ts2, now2))
    (herr : oracle e.msgid opts.source_language target = Except.error err) :
    translateEntries opts oracle path target st (e :: rest) =
      (translateEntries opts oracle path target
          { st with
              request_times := ts2, now := now2,
              log := st.log ++ [Event.request e.msgid target,
                Event.failed (e.msgid.take 50) err] } rest).map
        (fun r => (e :: r.1, r.2)) ∧
    (RunSt.mk st.translated_count ts2 now2
        (st.log ++ [Event.request e.msgid target,
          Event.failed (e.msgid.take 50) err])).translated_count =
      st.translated_count ∧
    savedPaths (st.log ++ [Event.request e.msgid target,
        Event.failed (e.msgid.take 50) err]) = savedPaths st.log ∧
    successCount (st.log ++ [Event.request e.msgid target,
        Event.failed (e.msgid.take 50) err]) = successCount st.log := by
  obtain ⟨hskip, hemp⟩ := selectEntry_eq_true.mp hsel
  refine ⟨?_, rfl, ?_, ?_⟩
  · rw [translateEntries_cons, if_neg (by simp [hnl]), if_neg (by simp [hskip]),
      if_neg (by simp [hemp]), attemptEntry_err path hacq herr]
  · simp [savedPaths_append, savedPaths]
  · simp [successCount_append, successCount]

set_option maxRecDepth 4000 in
/-- Witness for C5: with a failing capability, the failing entry is kept
unchanged and the next entry is still processed. -/
theorem c5_failure_is_nonfatal_witness :
    (translateEntries
        { locale := [], skip_translated := false, set_fuzzy := false,
          source_language := "en", limit_translations := none,
          requests_per_10s := 10 }
        (fun _ _ _ => Except.error "boom") ["x.po"] "fr"
        { translated_count := 0, request_times := [], now := 0, log := [] }
        [{ msgid := "Hello", msgstr := "", flags := [] },
         { msgid := "World", msgstr := "", flags := [] }] =
      (translateEntries
          { locale := [], skip_translated := false, set_fuzzy := false,
            source_language := "en", limit_translations := none,
            requests_per_10s := 10 }
          (fun _ _ _ => Except.error "boom") ["x.po"] "fr"
          { translated_count := 0, request_times := [0], now := 0,
            log := [Event.request "Hello" "fr", Event.failed "Hello" "boom"] }
          [{ msgid := "World", msgstr := "", flags := [] }]).map
        (fun r => ({ msgid := "Hello", msgstr := "", flags := [] } :: r.1, r.2)) ∧
      (RunSt.mk 0 [0] 0
          [Event.request "Hello" "fr", Event.failed "Hello" "boom"]).translated_count = 0 ∧
      savedPaths [Event.request "Hello" "fr", Event.failed "Hello" "boom"] =
        savedPaths [] ∧
      successCount [Event.request "Hello" "fr", Event.failed "Hello" "boom"] =
        successCount []) := by
  have h := c5_failure_is_nonfatal
    { locale := [], skip_translated := false, set_fuzzy := false,
      source_language := "en", limit_translations := none,
      requests_per_10s := 10 }
    (fun _ _ _ => Except.error "boom") ["x.po"] "fr"
    { translated_count := 0, request_times := [], now := 0, log := [] }
    { msgid := "Hello", msgstr := "", flags := [] }
    [{ msgid := "World", msgstr := "", flags := [] }]
    "boom" [0] 0 (by decide) (by decide) (by decide) rfl
  simpa using h

/-- C8: on a successful translation the entry's translated text is set to
the capability's answer and the "fuzzy" flag is appended exactly when
`set_fuzzy` is on — with `set_fuzzy` off the flag list is left unchanged. -/
theorem c8_set_fuzzy_flag (opts : Options) (oracle : Oracle)
    (path : List String) (target : String) (st : RunSt) (e : POEntry)
    (rest : List POEntry) (t : String) (ts2 : List ℚ) (now2 : ℚ)
    (hnl : limitReached opts.limit_translations st.translated_count = false)
    (hsel : selectEntry opts.skip_translated e = true)
    (hacq : wait_for_rate_limit opts.requests_per_10s st.request_times st.now =
      some (ts2, now2))
    (hok : oracle e.msgid opts.source_language target = Except.ok t) :
    translateEntries opts oracle path target st (e :: rest) =
      (translateEntries opts oracle path target
          { translated_count := st.translated_count + 1,
            request_times := ts2, now := now2,
            log := st.log ++ [Event.request e.msgid target, Event.saved path,
              Event.translated (e.msgid.take 50) (t.take 50)] } rest).map
        (fun r => ({ msgid := e.msgid, msgstr := t,
                     flags := if opts.set_fuzzy then e.flags ++ ["fuzzy"]
                              else e.flags } :: r.1, r.2)) ∧
    (opts.set_fuzzy = true →
      (if opts.set_fuzzy then e.flags ++ ["fuzzy"] else e.flags) =
        e.flags ++ ["fuzzy"]) ∧
    (opts.set_fuzzy = false →
      (if opts.set_fuzzy then e.flags ++ ["fuzzy"] else e.flags) = e.flags) := by
  obtain ⟨hskip, hemp⟩ := selectEntry_eq_true.mp hsel
  refine ⟨?_, fun hf => by simp [hf], fun hf => by simp [hf]⟩
  rw [translateEntries_cons, if_neg (by simp [hnl]), if_neg (by simp [hskip]),
    if_neg (by simp [hemp]), attemptEntry_ok path hacq hok]

set_option maxRecDepth 4000 in
/-- Witness for C8 at a concrete successful translation with
`set_fuzzy = true`. -/
theorem c8_set_fuzzy_flag_witness :
    (translateEntries
        { locale := [], skip_translated := false, set_fuzzy := true,
          source_language := "en", limit_translations := none,
          requests_per_10s := 10 }
        (okOracle fun _ _ _ => "Bonjour") ["x.po"] "fr"
        { translated_count := 0, request_times := [], now := 0, log := [] }
        [{ msgid := "Hi", msgstr := "", flags := [] }] =
      (translateEntries
          { locale := [], skip_translated := false, set_fuzzy := true,
            source_language := "en", limit_translations := none,
            requests_per_10s := 10 }
          (okOracle fun _ _ _ => "Bonjour") ["x.po"] "fr"
          { translated_count := 1, request_times := [0], now := 0,
            log := [Event.request "Hi" "fr", Event.saved ["x.po"],
              Event.translated "Hi" "Bonjour"] }
          []).map
        (fun r => ({ msgid := "Hi", msgstr := "Bonjour",
                     flags := if true then ([] : List String) ++ ["fuzzy"]
                              else [] } :: r.1, r.2)) ∧
      (true = true → (if true then ([] : List String) ++ ["fuzzy"] else []) =
        [] ++ ["fuzzy"]) ∧
      (true = false → (if true then ([] : List String) ++ ["fuzzy"] else []) =
        [])) := by
  have h := c8_set_fuzzy_flag
    { locale := [], skip_translated := false, set_fuzzy := true,
      source_language := "en", limit_translations := none,
      requests_per_10s := 10 }
    (okOracle fun _ _ _ => "Bonjour") ["x.po"] "fr"
    { translated_count := 0, request_times := [], now := 0, log := [] }
    { msgid := "Hi", msgstr := "", flags := [] }
    [] "Bonjour" [0] 0 (by decide) (by decide) (by decide) rfl
  simpa using h

/-! ### File and directory loop lemmas -/

lemma requestedIds_limitStop : requestedIds [Event.limitStop] = [] := rfl

lemma requestedIds_skipLocale (l : String) :
    requestedIds [Event.skipLocale l] = [] := rfl

lemma processFiles_nil (opts : Options) (oracle : Oracle) (root : List String)
    (st : RunSt) : processFiles opts oracle root st [] = some (st, true) := rfl

lemma processFiles_cons (opts : Options) (oracle : Oracle) (root : List String)
    (st : RunSt) (name : String) (entries : List POEntry)
    (rest : List (String × List POEntry)) :
    processFiles opts oracle root st ((name, entries) :: rest) =
      if limitReached opts.limit_translations st.translated_count then
        some ({ st with log := st.log ++ [Event.limitStop] }, false)
      else if !(strEndsWith name ".po") then
        processFiles opts oracle root st rest
      else if !opts.locale.isEmpty && !(opts.locale.contains (targetLangOf root)) then
        processFiles opts oracle root
          { st with log := st.log ++ [Event.skipLocale (targetLangOf root)] } rest
      else
        match translate_file opts oracle root name (targetLangOf root) entries st with
        | none => none
        | some (_, st2, b) =>
          if b then processFiles opts oracle root st2 rest
          else some (st2, false) := rfl

/-- Every request event added by the entry loop carries the target
language the loop was given. -/
lemma translateEntries_requests_target (opts : Options) (oracle : Oracle)
    (path : List String) (target : String) :
    ∀ (entries : List POEntry) (st : RunSt) (out : List POEntry) (st' : RunSt)
      (b : Bool),
      translateEntries opts oracle path target st entries = some (out, st', b) →
      ∀ mt ∈ requestedIds st'.log, mt ∈ requestedIds st.log ∨ mt.2 = target := by
  intro entries
  induction entries with
  | nil =>
    intro st out st' b h mt hmt
    rw [translateEntries_nil] at h
    simp only [Option.some.injEq, Prod.mk.injEq] at h
    obtain ⟨-, h2, -⟩ := h
    subst h2
    exact Or.inl hmt
  | cons e rest ih =>
    intro st out st' b h mt hmt
    rw [translateEntries_cons] at h
    split at h
    · simp only [Option.some.injEq, Prod.mk.injEq] at h
      obtain ⟨-, h2, -⟩ := h
      subst h2
      simp only [requestedIds_append, requestedIds_limitStop,
        List.append_nil] at hmt
      exact Or.inl hmt
    · split at h
      · rw [Option.map_eq_some'] at h
        obtain ⟨⟨out1, st1, b1⟩, hTE, hf⟩ := h
        simp only [Prod.mk.injEq] at hf
        obtain ⟨-, h2, -⟩ := hf
        subst h2
        exact ih st out1 st1 b1 hTE mt hmt
      · split at h
        · rw [Option.map_eq_some'] at h
          obtain ⟨⟨out1, st1, b1⟩, hTE, hf⟩ := h
          simp only [Prod.mk.injEq] at hf
          obtain ⟨-, h2, -⟩ := hf
          subst h2
          exact ih st out1 st1 b1 hTE mt hmt
        · split at h
          · exact absurd h (by simp)
          · case _ e2 st2 heq =>
            rw [Option.map_eq_some'] at h
            obtain ⟨⟨out1, st1, b1⟩, hTE, hf⟩ := h
            simp only [Prod.mk.injEq] at hf
            obtain ⟨-, h2, -⟩ := hf
            subst h2
            obtain ⟨ts2, now2, hw, hrt, hnow, hreq2, -⟩ := attemptEntry_elim heq
            rcases ih st2 out1 st1 b1 hTE mt hmt with hin | htg
            · rw [hreq2] at hin
              rcases List.mem_append.mp hin with hin1 | hin2
              · exact Or.inl hin1
              · simp only [List.mem_singleton] at hin2
                subst hin2
                exact Or.inr rfl
            · exact Or.inr htg

/-- Every request event added by the file loop carries the target language
derived from the walked directory's path. -/
lemma processFiles_requests_target (opts : Options) (oracle : Oracle)
    (root : List String) :
    ∀ (files : List (String × List POEntry)) (st st' : RunSt) (b : Bool),
      processFiles opts oracle root st files = some (st', b) →
      ∀ mt ∈ requestedIds st'.log,
        mt ∈ requestedIds st.log ∨ mt.2 = targetLangOf root := by
  intro files
  induction files with
  | nil =>
    intro st st' b h mt hmt
    rw [processFiles_nil] at h
    simp only [Option.some.injEq, Prod.mk.injEq] at h
    obtain ⟨h1, -⟩ := h
    subst h1
    exact Or.inl hmt
  | cons f rest ih =>
    intro st st' b h mt hmt
    cases f with
    | mk name entries =>
      rw [processFiles_cons] at h
      split at h
      · simp only [Option.some.injEq, Prod.mk.injEq] at h
        obtain ⟨h1, -⟩ := h
        subst h1
        simp only [requestedIds_append, requestedIds_limitStop,
          List.append_nil] at hmt
        exact Or.inl hmt
      · split at h
        · exact ih st st' b h mt hmt
        · split at h
          · have hrec := ih _ st' b h mt hmt
            rcases hrec with hin | htg
            · simp only [requestedIds_append, requestedIds_skipLocale,
                List.append_nil] at hin
              exact Or.inl hin
            · exact Or.inr htg
          · split at h
            · exact absurd h (by simp)
            · case _ out1 st2 b2 heq =>
              have hTE := translateEntries_requests_target opts oracle
                (root ++ [name]) (targetLangOf root) entries st out1 st2 b2 heq
              split at h
              · have hrec := ih st2 st' b h mt hmt
                rcases hrec with hin | htg
                · exact hTE mt hin
                · exact Or.inr htg
              · simp only [Option.some.injEq, Prod.mk.injEq] at h
                obtain ⟨h1, -⟩ := h
                subst h1
                exact hTE mt hmt

lemma targetLangOf_concat (p : List String) (loc lc : String) :
    targetLangOf (p ++ [loc, lc]) = loc := by
  unfold targetLangOf
  have h : p ++ [loc, lc] = (p ++ [loc]) ++ [lc] := by simp
  rw [h, List.dropLast_concat, List.getLastD_concat]

/-- C7: the target locale passed to the translation capability for every
request generated while processing a walked directory is the one derived
from the directory's path, and that derivation yields the name of the
directory two levels above the file (the `<locale>` component in the
`<root>/<locale>/LC_MESSAGES/<file>.po` layout). -/
theorem c7_target_locale_from_path :
    (∀ (p : List String) (loc lc : String), targetLangOf (p ++ [loc, lc]) = loc) ∧
    (∀ (opts : Options) (oracle : Oracle) (root : List String)
      (files : List (String × List POEntry)) (st st' : RunSt) (b : Bool),
      processFiles opts oracle root st files = some (st', b) →
      ∀ mt ∈ requestedIds st'.log,
        mt ∈ requestedIds st.log ∨ mt.2 = targetLangOf root) :=
  ⟨targetLangOf_concat,
   fun opts oracle root files st st' b h =>
     processFiles_requests_target opts oracle root files st st' b h⟩

set_option maxRecDepth 4000 in
/-- Witness for C7 at a concrete one-file run. -/
theorem c7_target_locale_from_path_witness :
    targetLangOf (["app"] ++ ["fr", "LC_MESSAGES"]) = "fr" ∧
    (("Hello", "fr") ∈
        requestedIds [Event.request "Hello" "fr", Event.saved
          ["app", "fr", "LC_MESSAGES", "x.po"], Event.translated "Hello" "Bonjour"] →
      ("Hello", "fr") ∈ requestedIds ([] : List Event) ∨
        ("Hello", "fr").2 = targetLangOf ["app", "fr", "LC_MESSAGES"]) := by
  constructor
  · exact c7_target_locale_from_path.1 ["app"] "fr" "LC_MESSAGES"
  · intro hmem
    exact c7_target_locale_from_path.2
      { locale := [], skip_translated := false, set_fuzzy := false,
        source_language := "en", limit_translations := none,
        requests_per_10s := 10 }
      (okOracle fun _ _ _ => "Bonjour") ["app", "fr", "LC_MESSAGES"]
      [("x.po", [{ msgid := "Hello", msgstr := "", flags := [] }])]
      { translated_count := 0, request_times := [], now := 0, log := [] }
      { translated_count := 1, request_times := [0], now := 0,
        log := [Event.request "Hello" "fr", Event.saved
          ["app", "fr", "LC_MESSAGES", "x.po"],
          Event.translated "Hello" "Bonjour"] }
      true (by decide) ("Hello", "fr") hmem

/-- C6: a discovered `.po` file whose derived locale is not in a non-empty
allow-list is skipped entirely before being loaded — the skip is reported
and nothing else happens for that file, whatever its entries — while with
an empty allow-list the file is processed for every locale. -/
theorem c6_locale_allowlist (opts : Options) (oracle : Oracle)
    (root : List String) (st : RunSt) (name : String)
    (entries : List POEntry) (rest : List (String × List POEntry))
    (hpo : strEndsWith name ".po" = true)
    (hnl : limitReached opts.limit_translations st.translated_count = false) :
    (opts.locale ≠ [] → opts.locale.contains (targetLangOf root) = false →
      processFiles opts oracle root st ((name, entries) :: rest) =
        processFiles opts oracle root
          { st with log := st.log ++ [Event.skipLocale (targetLangOf root)] }
          rest) ∧
    (opts.locale = [] →
      processFiles opts oracle root st ((name, entries) :: rest) =
        match translate_file opts oracle root name (targetLangOf root) entries st with
        | none => none
        | some (_, st2, b) =>
          if b then processFiles opts oracle root st2 rest
          else some (st2, false)) := by
  constructor
  · intro hne hcon
    have hie : opts.locale.isEmpty = false := by
      cases hl : opts.locale with
      | nil => exact absurd hl hne
      | cons a l => rfl
    have hc : (!opts.locale.isEmpty &&
        !(opts.locale.contains (targetLangOf root))) = true := by
      rw [hie, hcon]
      rfl
    rw [processFiles_cons, if_neg (by simp [hnl]), if_neg (by simp [hpo]),
      if_pos hc]
  · intro hloc
    rw [processFiles_cons, if_neg (by simp [hnl]), if_neg (by simp [hpo]),
      if_neg (by rw [hloc]; simp)]

set_option maxRecDepth 4000 in
/-- Witness for C6 at a concrete skipped file. -/
theorem c6_locale_allowlist_witness :
    ((["de"] : List String) ≠ [] →
      (["de"] : List String).contains (targetLangOf ["app", "fr", "LC_MESSAGES"]) = false →
      processFiles
          { locale := ["de"], skip_translated := false, set_fuzzy := false,
            source_language := "en", limit_translations := none,
            requests_per_10s := 10 }
          (okOracle fun _ _ _ => "Bonjour") ["app", "fr", "LC_MESSAGES"]
          { translated_count := 0, request_times := [], now := 0, log := [] }
          [("x.po", [{ msgid := "Hello", msgstr := "", flags := [] }])] =
        processFiles
          { locale := ["de"], skip_translated := false, set_fuzzy := false,
            source_language := "en", limit_translations := none,
            requests_per_10s := 10 }
          (okOracle fun _ _ _ => "Bonjour") ["app", "fr", "LC_MESSAGES"]
          { translated_count := 0, request_times := [], now := 0,
            log := [Event.skipLocale (targetLangOf ["app", "fr", "LC_MESSAGES"])] }
          []) ∧
    ((["de"] : List String) = [] →
      processFiles
          { locale := ["de"], skip_translated := false, set_fuzzy := false,
            source_language := "en", limit_translations := none,
            requests_per_10s := 10 }
          (okOracle fun _ _ _ => "Bonjour") ["app", "fr", "LC_MESSAGES"]
          { translated_count := 0, request_times := [], now := 0, log := [] }
          [("x.po", [{ msgid := "Hello", msgstr := "", flags := [] }])] =
        match translate_file
            { locale := ["de"], skip_translated := false, set_fuzzy := false,
              source_language := "en", limit_translations := none,
              requests_per_10s := 10 }
            (okOracle fun _ _ _ => "Bonjour") ["app", "fr", "LC_MESSAGES"] "x.po"
            (targetLangOf ["app", "fr", "LC_MESSAGES"])
            [{ msgid := "Hello", msgstr := "", flags := [] }]
            { translated_count := 0, request_times := [], now := 0, log := [] } with
        | none => none
        | some (_, st2, b) =>
          if b then
            processFiles
              { locale := ["de"], skip_translated := false, set_fuzzy := false,
                source_language := "en", limit_translations := none,
                requests_per_10s := 10 }
              (okOracle fun _ _ _ => "Bonjour") ["app", "fr", "LC_MESSAGES"] st2 []
          else some (st2, false)) := by
  have h := c6_locale_allowlist
    { locale := ["de"], skip_translated := false, set_fuzzy := false,
      source_language := "en", limit_translations := none,
      requests_per_10s := 10 }
    (okOracle fun _ _ _ => "Bonjour") ["app", "fr", "LC_MESSAGES"]
    { translated_count := 0, request_times := [], now := 0, log := [] }
    "x.po" [{ msgid := "Hello", msgstr := "", flags := [] }] []
    (by decide) (by decide)
  simpa using h

/-! ### Entry selection without a translation cap -/

/-- With no cap configured, the entry loop attempts exactly the selected
entries, in catalog order. -/
lemma translateEntries_noLimit (opts : Options) (oracle : Oracle)
    (path : List String) (target : String)
    (hlim : opts.limit_translations = none) (hm : 1 ≤ opts.requests_per_10s) :
    ∀ (entries : List POEntry) (st : RunSt),
      ∃ out st',
        translateEntries opts oracle path target st entries =
          some (out, st', true) ∧
        requestedIds st'.log = requestedIds st.log ++
          (entries.filter (selectEntry opts.skip_translated)).map
            (fun e => (e.msgid, target)) := by
  intro entries
  induction entries with
  | nil =>
    intro st
    exact ⟨[], st, rfl, by simp⟩
  | cons e rest ih =>
    intro st
    have hnl : limitReached opts.limit_translations st.translated_count = false := by
      rw [hlim]
      rfl
    cases hskip : (opts.skip_translated && e.translated) with
    | true =>
      obtain ⟨out, st', hTE, hreq⟩ := ih st
      refine ⟨e :: out, st', ?_, ?_⟩
      · rw [translateEntries_cons, if_neg (by simp [hnl]),
          if_pos (by simp [hskip]), hTE]
        rfl
      · rw [List.filter_cons_of_neg (by simp [selectEntry, hskip])]
        exact hreq
    | false =>
      cases hemp : strippedEmpty e.msgid with
      | true =>
        obtain ⟨out, st', hTE, hreq⟩ := ih st
        refine ⟨e :: out, st', ?_, ?_⟩
        · rw [translateEntries_cons, if_neg (by simp [hnl]),
            if_neg (by simp [hskip]), if_pos (by simp [hemp]), hTE]
          rfl
        · rw [List.filter_cons_of_neg (by simp [selectEntry, hemp])]
          exact hreq
      | false =>
        have hsome : (attemptEntry opts oracle path target e st).isSome = true :=
          attemptEntry_isSome hm
        obtain ⟨p, ha⟩ := Option.isSome_iff_exists.mp hsome
        cases p with
        | mk e2 st2 =>
          obtain ⟨ts2, now2, hw, hrt, hnow, hreq2, -⟩ := attemptEntry_elim ha
          obtain ⟨out, st', hTE, hreq⟩ := ih st2
          refine ⟨e2 :: out, st', ?_, ?_⟩
          · rw [translateEntries_cons, if_neg (by simp [hnl]),
              if_neg (by simp [hskip]), if_neg (by simp [hemp]), ha]
            simp [hTE]
          · have hsel : selectEntry opts.skip_translated e = true :=
              selectEntry_eq_true.mpr ⟨hskip, hemp⟩
            rw [List.filter_cons_of_pos hsel, List.map_cons, hreq, hreq2]
            simp [List.append_assoc]

/-- C4: with no translation cap, an entry is attempted exactly when its
source text is non-whitespace and it is not excluded by the
`skip_translated` rule — the attempted source texts are precisely the
selected entries in catalog order — so exactly K entries are attempted
where K counts the selected ones, K is invariant under reordering of the
catalog, and entries with empty or whitespace-only source text are never
selected under any option configuration. -/
theorem c4_selected_entries (opts : Options) (oracle : Oracle)
    (path : List String) (target : String) (st : RunSt)
    (entries : List POEntry)
    (hlim : opts.limit_translations = none)
    (hm : 1 ≤ opts.requests_per_10s) :
    (∃ out st',
      translateEntries opts oracle path target st entries =
        some (out, st', true) ∧
      requestedIds st'.log = requestedIds st.log ++
        (entries.filter (selectEntry opts.skip_translated)).map
          (fun e => (e.msgid, target))) ∧
    (∀ l2 : List POEntry, entries.Perm l2 →
      selCount opts.skip_translated l2 = selCount opts.skip_translated entries) ∧
    (∀ (skip : Bool) (e : POEntry), strippedEmpty e.msgid = true →
      selectEntry skip e = false) := by
  refine ⟨translateEntries_noLimit opts oracle path target hlim hm entries st,
    ?_, ?_⟩
  · intro l2 hperm
    unfold selCount
    rw [← List.countP_eq_length_filter, ← List.countP_eq_length_filter]
    exact (hperm.countP_eq _).symm
  · intro skip e hemp
    simp [selectEntry, hemp]

set_option maxRecDepth 4000 in
/-- Witness for C4 at a concrete two-entry catalog (one entry blank). -/
theorem c4_selected_entries_witness :
    (∃ out st',
      translateEntries
          { locale := [], skip_translated := true, set_fuzzy := false,
            source_language := "en", limit_translations := none,
            requests_per_10s := 10 }
          (okOracle fun _ _ _ => "Bonjour") ["x.po"] "fr"
          { translated_count := 0, request_times := [], now := 0, log := [] }
          [{ msgid := "Hello", msgstr := "", flags := [] },
           { msgid := " ", msgstr := "", flags := [] }] =
        some (out, st', true) ∧
      requestedIds st'.log = requestedIds [] ++
        ([{ msgid := "Hello", msgstr := "", flags := [] },
          { msgid := " ", msgstr := "", flags := [] }].filter
            (selectEntry true)).map (fun e => (e.msgid, "fr"))) ∧
    (∀ l2 : List POEntry,
      List.Perm [{ msgid := "Hello", msgstr := "", flags := [] },
        { msgid := " ", msgstr := "", flags := [] }] l2 →
      selCount true l2 =
        selCount true [{ msgid := "Hello", msgstr := "", flags := [] },
          { msgid := " ", msgstr := "", flags := [] }]) ∧
    (∀ (skip : Bool) (e : POEntry), strippedEmpty e.msgid = true →
      selectEntry skip e = false) := by
  have h := c4_selected_entries
    { locale := [], skip_translated := true, set_fuzzy := false,
      source_language := "en", limit_translations := none,
      requests_per_10s := 10 }
    (okOracle fun _ _ _ => "Bonjour") ["x.po"] "fr"
    { translated_count := 0, request_times := [], now := 0, log := [] }
    [{ msgid := "Hello", msgstr := "", flags := [] },
     { msgid := " ", msgstr := "", flags := [] }]
    rfl (by decide)
  simpa using h

/-! ### The translation cap -/

lemma RunSt_mk_translated_count (a : ℕ) (b : List ℚ) (c : ℚ) (d : List Event) :
    (RunSt.mk a b c d).translated_count = a := rfl

lemma RunSt_mk_log (a : ℕ) (b : List ℚ) (c : ℚ) (d : List Event) :
    (RunSt.mk a b c d).log = d := rfl

lemma counts_limitStop (l : List Event) :
    requestCount (l ++ [Event.limitStop]) = requestCount l ∧
    successCount (l ++ [Event.limitStop]) = successCount l ∧
    savedCount (l ++ [Event.limitStop]) = savedCount l := by
  refine ⟨?_, ?_, ?_⟩ <;>
    simp [requestCount_append, successCount_append, savedCount_append,
      requestCount, requestedIds, successCount, savedCount, savedPaths]

lemma counts_skipLocale (l : List Event) (loc : String) :
    requestCount (l ++ [Event.skipLocale loc]) = requestCount l ∧
    successCount (l ++ [Event.skipLocale loc]) = successCount l ∧
    savedCount (l ++ [Event.skipLocale loc]) = savedCount l := by
  refine ⟨?_, ?_, ?_⟩ <;>
    simp [requestCount_append, successCount_append, savedCount_append,
      requestCount, requestedIds, successCount, savedCount, savedPaths]

lemma counts_success (l : List Event) (a tgt : String) (p : List String)
    (x y : String) :
    requestCount (l ++ [Event.request a tgt, Event.saved p,
      Event.translated x y]) = requestCount l + 1 ∧
    successCount (l ++ [Event.request a tgt, Event.saved p,
      Event.translated x y]) = successCount l + 1 ∧
    savedCount (l ++ [Event.request a tgt, Event.saved p,
      Event.translated x y]) = savedCount l + 1 := by
  refine ⟨?_, ?_, ?_⟩ <;>
    simp [requestCount_append, successCount_append, savedCount_append,
      requestCount, requestedIds, successCount, savedCount, savedPaths]

lemma limitReached_some_true {L : ℤ} {c : ℕ}
    (h : limitReached (some L) c = true) : L ≤ (c : ℤ) := by
  simp [limitReached] at h
  exact h.2

lemma limitReached_some_false {L : ℤ} {c : ℕ} (hL : 1 ≤ L)
    (h : limitReached (some L) c = false) : (c : ℤ) < L := by
  simp [limitReached] at h
  exact h (by omega)

/-- With a positive cap `L`, an always-succeeding capability and at most
`L` translations performed so far, the entry loop raises the counter to
`min (count + selected, L)`, pairs every new translation with exactly one
request and one save, and reports `False` only with the counter at `L`. -/
lemma translateEntries_limit (opts : Options)
    (f : String → String → String → String) (path : List String)
    (target : String) (L : ℤ)
    (hlim : opts.limit_translations = some L) (hL : 1 ≤ L)
    (hm : 1 ≤ opts.requests_per_10s) :
    ∀ (entries : List POEntry) (st : RunSt),
      (st.translated_count : ℤ) ≤ L →
      ∃ out st' b d,
        translateEntries opts (okOracle f) path target st entries =
          some (out, st', b) ∧
        st'.translated_count = st.translated_count + d ∧
        (st'.translated_count : ℤ) =
          min ((st.translated_count : ℤ) +
            (selCount opts.skip_translated entries : ℤ)) L ∧
        (b = false → (st'.translated_count : ℤ) = L) ∧
        requestCount st'.log = requestCount st.log + d ∧
        successCount st'.log = successCount st.log + d ∧
        savedCount st'.log = savedCount st.log + d := by
  intro entries
  induction entries with
  | nil =>
    intro st hc
    refine ⟨[], st, true, 0, rfl, by omega, ?_, by simp, by omega, by omega,
      by omega⟩
    simp [selCount]
    omega
  | cons e rest ih =>
    intro st hc
    cases hlr : limitReached opts.limit_translations st.translated_count with
    | true =>
      have hLc : L ≤ (st.translated_count : ℤ) :=
        limitReached_some_true (hlim ▸ hlr)
      obtain ⟨hr, hs, hv⟩ := counts_limitStop st.log
      refine ⟨e :: rest, { st with log := st.log ++ [Event.limitStop] },
        false, 0, ?_, by simp only [RunSt_mk_translated_count]; omega,
        ?_, ?_, ?_, ?_, ?_⟩
      · rw [translateEntries_cons, if_pos hlr]
      · simp only [RunSt_mk_translated_count]
        omega
      · intro hb
        simp only [RunSt_mk_translated_count]
        omega
      · simpa using hr
      · simpa using hs
      · simpa using hv
    | false =>
      have hcl : (st.translated_count : ℤ) < L :=
        limitReached_some_false hL (hlim ▸ hlr)
      cases hskip : (opts.skip_translated && e.translated) with
      | true =>
        have hsc : selCount opts.skip_translated (e :: rest) =
            selCount opts.skip_translated rest := by
          unfold selCount
          rw [List.filter_cons_of_neg (by simp [selectEntry, hskip])]
        obtain ⟨out, st', b, d, hTE, hcnt, hmin, hbf, hrc, hsucc, hvc⟩ := ih st hc
        refine ⟨e :: out, st', b, d, ?_, hcnt, ?_, hbf, hrc, hsucc, hvc⟩
        · rw [translateEntries_cons, if_neg (by simp [hlr]),
            if_pos (by simp [hskip]), hTE]
          rfl
        · rw [hsc]
          exact hmin
      | false =>
        cases hemp : strippedEmpty e.msgid with
        | true =>
          have hsc : selCount opts.skip_translated (e :: rest) =
              selCount opts.skip_translated rest := by
            unfold selCount
            rw [List.filter_cons_of_neg (by simp [selectEntry, hemp])]
          obtain ⟨out, st', b, d, hTE, hcnt, hmin, hbf, hrc, hsucc, hvc⟩ := ih st hc
          refine ⟨e :: out, st', b, d, ?_, hcnt, ?_, hbf, hrc, hsucc, hvc⟩
          · rw [translateEntries_cons, if_neg (by simp [hlr]),
              if_neg (by simp [hskip]), if_pos (by simp [hemp]), hTE]
            rfl
          · rw [hsc]
            exact hmin
        | false =>
          have hsel : selectEntry opts.skip_translated e = true :=
            selectEntry_eq_true.mpr ⟨hskip, hemp⟩
          have hsc : selCount opts.skip_translated (e :: rest) =
              selCount opts.skip_translated rest + 1 := by
            unfold selCount
            rw [List.filter_cons_of_pos hsel]
            simp
          obtain ⟨⟨ts2, now2⟩, hw⟩ := Option.isSome_iff_exists.mp
            (wait_for_rate_limit_isSome hm st.request_times st.now)
          have hok : okOracle f e.msgid opts.source_language target =
              Except.ok (f e.msgid opts.source_language target) := rfl
          have ha := attemptEntry_ok path hw hok
          obtain ⟨hr1, hs1, hv1⟩ := counts_success st.log e.msgid target path
            (e.msgid.take 50) ((f e.msgid opts.source_language target).take 50)
          obtain ⟨out, st', b, d, hTE, hcnt, hmin, hbf, hrc, hsucc, hvc⟩ :=
            ih { translated_count := st.translated_count + 1,
                 request_times := ts2, now := now2,
                 log := st.log ++ [Event.request e.msgid target,
                   Event.saved path, Event.translated (e.msgid.take 50)
                     ((f e.msgid opts.source_language target).take 50)] }
              (by push_cast; omega)
          simp only [RunSt_mk_translated_count, RunSt_mk_log] at hcnt hmin hrc hsucc hvc
          refine ⟨{ msgid := e.msgid,
                    msgstr := f e.msgid opts.source_language target,
                    flags := if opts.set_fuzzy then e.flags ++ ["fuzzy"]
                             else e.flags } :: out,
            st', b, d + 1, ?_, by omega, ?_, hbf, ?_, ?_, ?_⟩
          · rw [translateEntries_cons, if_neg (by simp [hlr]),
              if_neg (by simp [hskip]), if_neg (by simp [hemp]), ha]
            simp [hTE]
          · rw [hsc]
            push_cast at hmin ⊢
            omega
          · omega
          · omega
          · omega

lemma filesSel_cons (opts : Options) (root : List String)
    (g : String × List POEntry) (rest : List (String × List POEntry)) :
    filesSel opts root (g :: rest) =
      fileSel opts root g + filesSel opts root rest := by
  simp [filesSel]

/-- The cap invariant lifted to the file loop. -/
lemma processFiles_limit (opts : Options)
    (f : String → String → String → String) (root : List String) (L : ℤ)
    (hlim : opts.limit_translations = some L) (hL : 1 ≤ L)
    (hm : 1 ≤ opts.requests_per_10s) :
    ∀ (files : List (String × List POEntry)) (st : RunSt),
      (st.translated_count : ℤ) ≤ L →
      ∃ st' b d,
        processFiles opts (okOracle f) root st files = some (st', b) ∧
        st'.translated_count = st.translated_count + d ∧
        (st'.translated_count : ℤ) =
          min ((st.translated_count : ℤ) + (filesSel opts root files : ℤ)) L ∧
        (b = false → (st'.translated_count : ℤ) = L) ∧
        requestCount st'.log = requestCount st.log + d ∧
        successCount st'.log = successCount st.log + d ∧
        savedCount st'.log = savedCount st.log + d := by
  intro files
  induction files with
  | nil =>
    intro st hc
    refine ⟨st, true, 0, rfl, by omega, ?_, by simp, by omega, by omega,
      by omega⟩
    simp [filesSel]
    omega
  | cons g rest ih =>
    intro st hc
    cases g with
    | mk name entries =>
      cases hlr : limitReached opts.limit_translations st.translated_count with
      | true =>
        have hLc : L ≤ (st.translated_count : ℤ) :=
          limitReached_some_true (hlim ▸ hlr)
        obtain ⟨hr, hs, hv⟩ := counts_limitStop st.log
        refine ⟨{ st with log := st.log ++ [Event.limitStop] }, false, 0,
          ?_, by simp only [RunSt_mk_translated_count]; omega,
          ?_, ?_, ?_, ?_, ?_⟩
        · rw [processFiles_cons, if_pos hlr]
        · simp only [RunSt_mk_translated_count]
          omega
        · intro hb
          simp only [RunSt_mk_translated_count]
          omega
        · simpa using hr
        · simpa using hs
        · simpa using hv
      | false =>
        have hcl : (st.translated_count : ℤ) < L :=
          limitReached_some_false hL (hlim ▸ hlr)
        cases hpo : strEndsWith name ".po" with
        | false =>
          have hf0 : fileSel opts root (name, entries) = 0 := by
            simp [fileSel, hpo]
          obtain ⟨st', b, d, hPF, hcnt, hmin, hbf, hrc, hsucc, hvc⟩ := ih st hc
          refine ⟨st', b, d, ?_, hcnt, ?_, hbf, hrc, hsucc, hvc⟩
          · rw [processFiles_cons, if_neg (by simp [hlr]),
              if_pos (by simp [hpo]), hPF]
          · rw [filesSel_cons, hf0]
            simpa using hmin
        | true =>
          cases hloc : (!opts.locale.isEmpty &&
              !(opts.locale.contains (targetLangOf root))) with
          | true =>
            have hf0 : fileSel opts root (name, entries) = 0 := by
              simp only [fileSel]
              rw [if_neg (by simp [hpo]), if_pos hloc]
            obtain ⟨hr, hs, hv⟩ := counts_skipLocale st.log (targetLangOf root)
            obtain ⟨st', b, d, hPF, hcnt, hmin, hbf, hrc, hsucc, hvc⟩ :=
              ih { st with log := st.log ++
                    [Event.skipLocale (targetLangOf root)] } hc
            simp only [RunSt_mk_translated_count, RunSt_mk_log] at hcnt hmin hrc hsucc hvc
            refine ⟨st', b, d, ?_, by omega, ?_, hbf, by omega, by omega,
              by omega⟩
            · rw [processFiles_cons, if_neg (by simp [hlr]),
                if_neg (by simp [hpo]), if_pos hloc, hPF]
            · rw [filesSel_cons, hf0]
              simpa using hmin
          | false =>
            have hfs : fileSel opts root (name, entries) =
                selCount opts.skip_translated entries := by
              simp only [fileSel]
              rw [if_neg (by simp [hpo]), if_neg (by rw [hloc]; simp)]
            obtain ⟨out, st2, b2, d2, hTE, hcnt2, hmin2, hbf2, hrc2, hsucc2,
              hvc2⟩ := translateEntries_limit opts f (root ++ [name])
                (targetLangOf root) L hlim hL hm entries st hc
            have hTF : translate_file opts (okOracle f) root name
                (targetLangOf root) entries st = some (out, st2, b2) := hTE
            have hc2 : (st2.translated_count : ℤ) ≤ L := by omega
            cases b2 with
            | true =>
              obtain ⟨st', b, d, hPF, hcnt, hmin, hbf, hrc, hsucc, hvc⟩ :=
                ih st2 hc2
              refine ⟨st', b, d2 + d, ?_, by omega, ?_, hbf, by omega,
                by omega, by omega⟩
              · rw [processFiles_cons, if_neg (by simp [hlr]),
                  if_neg (by simp [hpo]), if_neg (by rw [hloc]; simp), hTF]
                simpa using hPF
              · rw [filesSel_cons, hfs]
                push_cast at hmin hmin2 ⊢
                omega
            | false =>
              have hL2 : (st2.translated_count : ℤ) = L := hbf2 rfl
              refine ⟨st2, false, d2, ?_, hcnt2, ?_, fun _ => hL2, hrc2,
                hsucc2, hvc2⟩
              · rw [processFiles_cons, if_neg (by simp [hlr]),
                  if_neg (by simp [hpo]), if_neg (by rw [hloc]; simp), hTF]
                rfl
              · rw [filesSel_cons, hfs]
                push_cast at hmin2 ⊢
                omega

/-- The cap invariant lifted to the directory walk. -/
lemma processWalk_limit (opts : Options)
    (f : String → String → String → String) (L : ℤ)
    (hlim : opts.limit_translations = some L) (hL : 1 ≤ L)
    (hm : 1 ≤ opts.requests_per_10s) :
    ∀ (walk : List WalkDir) (st : RunSt),
      (st.translated_count : ℤ) ≤ L →
      ∃ st' b d,
        processWalk opts (okOracle f) st walk = some (st', b) ∧
        st'.translated_count = st.translated_count + d ∧
        (st'.translated_count : ℤ) =
          min ((st.translated_count : ℤ) + (rootSel opts walk : ℤ)) L ∧
        (b = false → (st'.translated_count : ℤ) = L) ∧
        requestCount st'.log = requestCount st.log + d ∧
        successCount st'.log = successCount st.log + d ∧
        savedCount st'.log = savedCount st.log + d := by
  intro walk
  induction walk with
  | nil =>
    intro st hc
    refine ⟨st, true, 0, rfl, by omega, ?_, by simp, by omega, by omega,
      by omega⟩
    simp [rootSel]
    omega
  | cons dir rest ih =>
    intro st hc
    have hrs : rootSel opts (dir :: rest) =
        filesSel opts dir.path dir.files + rootSel opts rest := by
      simp [rootSel]
    obtain ⟨st2, b2, d2, hPF, hcnt2, hmin2, hbf2, hrc2, hsucc2, hvc2⟩ :=
      processFiles_limit opts f dir.path L hlim hL hm dir.files st hc
    have hc2 : (st2.translated_count : ℤ) ≤ L := by omega
    cases b2 with
    | true =>
      obtain ⟨st', b, d, hPW, hcnt, hmin, hbf, hrc, hsucc, hvc⟩ := ih st2 hc2
      refine ⟨st', b, d2 + d, ?_, by omega, ?_, hbf, by omega, by omega,
        by omega⟩
      · show processWalk opts (okOracle f) st (dir :: rest) = some (st', b)
        unfold processWalk
        rw [hPF]
        simpa using hPW
      · rw [hrs]
        push_cast at hmin hmin2 ⊢
        omega
    | false =>
      have hL2 : (st2.translated_count : ℤ) = L := hbf2 rfl
      refine ⟨st2, false, d2, ?_, hcnt2, ?_, fun _ => hL2, hrc2, hsucc2, hvc2⟩
      · show processWalk opts (okOracle f) st (dir :: rest) = some (st2, false)
        unfold processWalk
        rw [hPF]
        rfl
      · rw [hrs]
        push_cast at hmin2 ⊢
        omega

/-- The cap invariant lifted to the root loop. -/
lemma processRoots_limit (opts : Options)
    (f : String → String → String → String) (L : ℤ)
    (hlim : opts.limit_translations = some L) (hL : 1 ≤ L)
    (hm : 1 ≤ opts.requests_per_10s) :
    ∀ (roots : List (List WalkDir)) (st : RunSt),
      (st.translated_count : ℤ) ≤ L →
      ∃ st' d,
        processRoots opts (okOracle f) st roots = some st' ∧
        st'.translated_count = st.translated_count + d ∧
        (st'.translated_count : ℤ) =
          min ((st.translated_count : ℤ) + (treeSel opts roots : ℤ)) L ∧
        requestCount st'.log = requestCount st.log + d ∧
        successCount st'.log = successCount st.log + d ∧
        savedCount st'.log = savedCount st.log + d := by
  intro roots
  induction roots with
  | nil =>
    intro st hc
    refine ⟨st, 0, rfl, by omega, ?_, by omega, by omega, by omega⟩
    simp [treeSel]
    omega
  | cons root rest ih =>
    intro st hc
    have hts : treeSel opts (root :: rest) =
        rootSel opts root + treeSel opts rest := by
      simp [treeSel]
    cases hlr : limitReached opts.limit_translations st.translated_count with
    | true =>
      have hLc : L ≤ (st.translated_count : ℤ) :=
        limitReached_some_true (hlim ▸ hlr)
      obtain ⟨hr, hs, hv⟩ := counts_limitStop st.log
      refine ⟨{ st with log := st.log ++ [Event.limitStop] }, 0, ?_,
        by simp only [RunSt_mk_translated_count]; omega, ?_, ?_, ?_, ?_⟩
      · show processRoots opts (okOracle f) st (root :: rest) = _
        unfold processRoots
        rw [if_pos hlr]
      · simp only [RunSt_mk_translated_count]
        omega
      · simpa using hr
      · simpa using hs
      · simpa using hv
    | false =>
      obtain ⟨st2, b2, d2, hPW, hcnt2, hmin2, hbf2, hrc2, hsucc2, hvc2⟩ :=
        processWalk_limit opts f L hlim hL hm root st hc
      have hc2 : (st2.translated_count : ℤ) ≤ L := by omega
      cases b2 with
      | true =>
        obtain ⟨st', d, hPR, hcnt, hmin, hrc, hsucc, hvc⟩ := ih st2 hc2
        refine ⟨st', d2 + d, ?_, by omega, ?_, by omega, by omega, by omega⟩
        · show processRoots opts (okOracle f) st (root :: rest) = some st'
          unfold processRoots
          rw [if_neg (by simp [hlr]), hPW]
          simpa using hPR
        · rw [hts]
          push_cast at hmin hmin2 ⊢
          omega
      | false =>
        have hL2 : (st2.translated_count : ℤ) = L := hbf2 rfl
        refine ⟨st2, d2, ?_, hcnt2, ?_, hrc2, hsucc2, hvc2⟩
        · show processRoots opts (okOracle f) st (root :: rest) = some st2
          unfold processRoots
          rw [if_neg (by simp [hlr]), hPW]
          rfl
        · rw [hts]
          push_cast at hmin2 ⊢
          omega

/-- C1 (amended to caps `L ≥ 1`): with a configured cap `L ≥ 1`, a positive
requests-per-window setting and an always-succeeding capability, if the
catalog tree holds more than `L` selectable entries then the run performs
exactly `L` translations — exactly `L` entries are ever attempted (so the
run stops before the `(L+1)`-th attempt, across all entries, files and
roots) and exactly `L` catalog saves occur, one per successful
translation. -/
theorem c1_translation_cap (opts : Options)
    (f : String → String → String → String)
    (roots : List (List WalkDir)) (t0 : ℚ) (L : ℤ)
    (hlim : opts.limit_translations = some L) (hL : 1 ≤ L)
    (hm : 1 ≤ opts.requests_per_10s)
    (hM : L < (treeSel opts roots : ℤ)) :
    ∃ st',
      handle { USE_I18N := true, LOCALE_PATHS := roots } opts (okOracle f) t0 =
        Except.ok st' ∧
      (st'.translated_count : ℤ) = L ∧
      (requestCount st'.log : ℤ) = L ∧
      (successCount st'.log : ℤ) = L ∧
      (savedCount st'.log : ℤ) = L := by
  obtain ⟨st', d, hPR, hcnt, hmin, hrc, hsucc, hvc⟩ :=
    processRoots_limit opts f L hlim hL hm roots
      { translated_count := 0, request_times := [], now := t0, log := [] }
      (by simp only [RunSt_mk_translated_count, Nat.cast_zero]; omega)
  have hie : roots.isEmpty = false := by
    cases roots with
    | nil =>
      simp [treeSel] at hM
      omega
    | cons a l => rfl
  simp only [RunSt_mk_translated_count, RunSt_mk_log] at hcnt hmin hrc hsucc hvc
  have h01 : requestCount ([] : List Event) = 0 := rfl
  have h02 : successCount ([] : List Event) = 0 := rfl
  have h03 : savedCount ([] : List Event) = 0 := rfl
  refine ⟨st', ?_, ?_, ?_, ?_, ?_⟩
  · unfold handle
    rw [hie, hPR]
    simp
  · omega
  · omega
  · omega
  · omega

set_option maxRecDepth 8000 in
/-- Witness for C1's amended theorem: a two-entry tree with cap 1. -/
theorem c1_translation_cap_witness :
    ∃ st',
      handle
          { USE_I18N := true,
            LOCALE_PATHS := [[{ path := ["app", "fr", "LC_MESSAGES"],
                                files := [("d.po",
                                  [{ msgid := "Hello", msgstr := "", flags := [] },
                                   { msgid := "World", msgstr := "", flags := [] }])] }]] }
          { locale := [], skip_translated := false, set_fuzzy := false,
            source_language := "en", limit_translations := some 1,
            requests_per_10s := 10 }
          (okOracle fun _ _ _ => "X") 0 =
        Except.ok st' ∧
      (st'.translated_count : ℤ) = 1 ∧
      (requestCount st'.log : ℤ) = 1 ∧
      (successCount st'.log : ℤ) = 1 ∧
      (savedCount st'.log : ℤ) = 1 :=
  c1_translation_cap
    { locale := [], skip_translated := false, set_fuzzy := false,
      source_language := "en", limit_translations := some 1,
      requests_per_10s := 10 }
    (fun _ _ _ => "X")
    [[{ path := ["app", "fr", "LC_MESSAGES"],
        files := [("d.po",
                    [{ msgid := "Hello", msgstr := "", flags := [] },
                     { msgid := "World", msgstr := "", flags := [] }])] }]]
    0 1 rfl (by decide) (by decide) (by decide)

set_option maxRecDepth 8000 in
/-- C1 counterexample: with `limit_translations = 0` (an integer `L ≥ 0`
allowed by the claim) the truthiness test `if self.limit_translations`
treats the cap as absent, so a tree with one selectable entry yields one
translation instead of the zero the claim requires. -/
theorem c1_translation_cap_counterexample :
    (handle
        { USE_I18N := true,
          LOCALE_PATHS := [[{ path := ["app", "fr", "LC_MESSAGES"],
                              files := [("d.po",
                                [{ msgid := "Hello", msgstr := "", flags := [] }])] }]] }
        { locale := [], skip_translated := false, set_fuzzy := false,
          source_language := "en", limit_translations := some 0,
          requests_per_10s := 10 }
        (okOracle fun _ _ _ => "Bonjour") 0).toOption.map
      RunSt.translated_count = some 1 := by
  decide

end DeepTranslator
